import Mathlib

/-!
Verification of the IR text parser of the Slang-IR-Vis repository.

The development shallowly embeds `src/services/irParser.ts` (the pass
segmenter `parsePasses`, the graph builder `parseSlangIR`, and their
helpers `findAllReferences`, `parseOperands`, `processOperand`,
`attachAttributesAndProcessEdges`) together with the data model of
`src/types.ts`.  JavaScript regular expressions are embedded through a
small executable backtracking engine (`REval`) whose repetition nodes
range over single-character classes, which covers every pattern the
parser uses; each TypeScript regex literal is transcribed as an `RE`
value next to a comment quoting the original pattern.
-/

/-! ## JavaScript character classes and string primitives -/

/-- Whitespace recognized by JavaScript `\s`, `String.prototype.trim`,
and friends: tab, LF, VT, FF, CR, space, NBSP, BOM, the Unicode
space separators, and the line separators U+2028/U+2029. -/
def jsSpace (c : Char) : Bool :=
  c = ' ' || c = '\t' || c = '\n' || c = '\x0b' || c = '\x0c' || c = '\r' ||
  c = '\u00A0' || c = '\u1680' ||
  ('\u2000' ≤ c && c ≤ '\u200A') ||
  c = '\u2028' || c = '\u2029' || c = '\u202F' || c = '\u205F' ||
  c = '\u3000' || c = '\uFEFF'

/-- Word characters of JavaScript `\w`: ASCII letters, digits, underscore. -/
def jsWord (c : Char) : Bool :=
  c.isAlphanum || c = '_'

/-- Character class `[\w\d]` used by `processOperand`; `\d` is contained
in `\w`, but we transcribe the class literally. -/
def jsWordOrDigit (c : Char) : Bool :=
  jsWord c || c.isDigit

/-- Characters matched by the regex dot `.` (no `s` flag): anything but
LF, CR, U+2028, U+2029. -/
def jsDot (c : Char) : Bool :=
  !(c = '\n' || c = '\r' || c = '\u2028' || c = '\u2029')

/-- JavaScript `String.prototype.trim` on a character list. -/
def jsTrimChars (l : List Char) : List Char :=
  ((l.dropWhile jsSpace).reverse.dropWhile jsSpace).reverse

/-- JavaScript `String.prototype.trim`. -/
def jsTrim (s : String) : String :=
  String.mk (jsTrimChars s.data)

/-- JavaScript `String.prototype.startsWith`. -/
def strStartsWith (s p : String) : Bool :=
  p.data.isPrefixOf s.data

/-- JavaScript `String.prototype.endsWith`. -/
def strEndsWith (s p : String) : Bool :=
  p.data.isSuffixOf s.data

/-- JavaScript `String.prototype.includes` for a single character
(the parser only ever asks `line.includes('=')`). -/
def strContainsChar (s : String) (c : Char) : Bool :=
  s.data.contains c

/-- JavaScript `str.slice(0, -1)`: the string without its final character. -/
def strDropLast (s : String) : String :=
  String.mk s.data.dropLast

/-- Replacement of every `\r\n` by `\n`, i.e. `input.replace(/\r\n/g, '\n')`. -/
def normalizeEndingsChars : List Char → List Char
  | '\r' :: '\n' :: rest => '\n' :: normalizeEndingsChars rest
  | c :: rest => c :: normalizeEndingsChars rest
  | [] => []

/-- Line-ending normalization on strings. -/
def normalizeEndings (s : String) : String :=
  String.mk (normalizeEndingsChars s.data)

/-- JavaScript `str.split('\n')` on a character list.  The result is
always non-empty; an input with `n` newline characters yields `n + 1`
pieces. -/
def splitNl : List Char → List (List Char)
  | [] => [[]]
  | c :: rest =>
    if c = '\n' then [] :: splitNl rest
    else
      match splitNl rest with
      | h :: t => (c :: h) :: t
      | [] => [[c]]

/-- JavaScript `str.split('\n')` on strings. -/
def splitLinesStr (s : String) : List String :=
  (splitNl s.data).map String.mk

/-- JavaScript `arr.join('\n')` on character lists. -/
def joinNlChars : List (List Char) → List Char
  | [] => []
  | [l] => l
  | l :: rest => l ++ '\n' :: joinNlChars rest

/-- JavaScript `buffer.join('\n')` on strings. -/
def joinNl (buffer : List String) : String :=
  String.mk (joinNlChars (buffer.map String.data))

/-! ## A small backtracking regex engine

Every regex literal in `irParser.ts` is a sequence of string literals,
single-character classes, repetitions of single-character classes
(greedy or lazy), capture groups, and greedy optional groups.  `REval`
implements the standard leftmost, preference-ordered backtracking
semantics of JavaScript regexes for exactly that fragment: it returns
the list of all ways to match a regex against a prefix of the input, in
the order the JavaScript engine would try them, each way carrying the
unconsumed suffix and the captured groups. -/

inductive RE where
  /-- Matches the empty string. -/
  | eps : RE
  /-- A literal string. -/
  | lit : String → RE
  /-- A single character from a class. -/
  | one : (Char → Bool) → RE
  /-- Repetition `p{min,}` of a single-character class, greedy when
  `lazi = false`, lazy when `lazi = true`. -/
  | rep : (Char → Bool) → Nat → Bool → RE
  /-- Capture group with the given 1-based index. -/
  | grp : Nat → RE → RE
  /-- Sequencing. -/
  | seq : RE → RE → RE
  /-- Greedy optional group `(?: ... )?`. -/
  | opt : RE → RE

/-- Sequencing of a list of regex pieces. -/
def seqList (l : List RE) : RE :=
  l.foldr RE.seq RE.eps

/-- Captured groups of one match attempt: later entries for the same
index are shadowed by earlier ones (the list is consed as groups
complete, so the first hit is the innermost completed capture). -/
def capStr (caps : List (Nat × String)) (i : Nat) : Option String :=
  (caps.find? (fun p => p.1 = i)).map (fun p => p.2)

/-- All ways to match `r` against a prefix of `s`, in backtracking
preference order; each outcome is the remaining suffix together with
the captures recorded so far. -/
def REval : RE → List Char → List (Nat × String) → List (List Char × List (Nat × String))
  | .eps, s, g => [(s, g)]
  | .lit l, s, g =>
    if l.data.isPrefixOf s then [(s.drop l.data.length, g)] else []
  | .one p, s, g =>
    match s with
    | c :: rest => if p c then [(rest, g)] else []
    | [] => []
  | .rep p min lazi, s, g =>
    let m := (s.takeWhile p).length
    if m < min then []
    else
      let ks := (List.range (m - min + 1)).map (fun k => k + min)
      let ks := if lazi then ks else ks.reverse
      ks.map (fun k => (s.drop k, g))
  | .grp i r, s, g =>
    (REval r s g).map (fun o => (o.1, (i, String.mk (s.take (s.length - o.1.length))) :: o.2))
  | .seq a b, s, g =>
    (REval a s g).flatMap (fun o => REval b o.1 o.2)
  | .opt r, s, g =>
    REval r s g ++ [(s, g)]

/-- Unanchored search, i.e. JavaScript `str.match(re)` for a regex with
neither `^` anchor nor `g` flag: the match attempted at the leftmost
possible start position wins, and within a start position the first
backtracking outcome wins.  Returns the captures of the match, if any. -/
def RESearch (r : RE) : List Char → Option (List (Nat × String))
  | [] =>
    match REval r [] [] with
    | o :: _ => some o.2
    | [] => none
  | c :: rest =>
    match REval r (c :: rest) [] with
    | o :: _ => some o.2
    | [] => RESearch r rest

/-- Match anchored at the start only (a regex beginning with `^`). -/
def REMatchHead (r : RE) (s : List Char) : Option (List (Nat × String)) :=
  match REval r s [] with
  | o :: _ => some o.2
  | [] => none

/-- Match anchored at both ends (a regex of the form `^...$`): the first
backtracking outcome that consumes the whole input. -/
def REMatchFull (r : RE) (s : List Char) : Option (List (Nat × String)) :=
  match (REval r s []).filter (fun o => o.1 = []) with
  | o :: _ => some o.2
  | [] => none

/-! ## The regexes of `irParser.ts`, transcribed -/

/-- Transcription of
`/let\s+(%\w+)\s*:\s*(.+?)\s*=\s*(\w+)(?:\((.*)\))?/`
(`instructionRegex`, `irParser.ts:97`). -/
def instructionRegex : RE :=
  seqList [.lit ("let"), .rep jsSpace 1 false,
    .grp 1 (seqList [.lit ("%"), .rep jsWord 1 false]),
    .rep jsSpace 0 false, .lit (":"), .rep jsSpace 0 false,
    .grp 2 (.rep jsDot 1 true),
    .rep jsSpace 0 false, .lit ("="), .rep jsSpace 0 false,
    .grp 3 (.rep jsWord 1 false),
    .opt (seqList [.lit ("("), .grp 4 (.rep jsDot 0 false), .lit (")")])]

/-- Transcription of `/block\s+(%\w+)(?::|\()/` (`blockRegex`,
`irParser.ts:100`). -/
def blockRegex : RE :=
  seqList [.lit ("block"), .rep jsSpace 1 false,
    .grp 1 (seqList [.lit ("%"), .rep jsWord 1 false]),
    .one (fun c => c = ':' || c = '(')]

/-- Transcription of `/func\s+(%\w+)\s*:\s*(.+)/` (`funcRegex`,
`irParser.ts:103`). -/
def funcRegex : RE :=
  seqList [.lit ("func"), .rep jsSpace 1 false,
    .grp 1 (seqList [.lit ("%"), .rep jsWord 1 false]),
    .rep jsSpace 0 false, .lit (":"), .rep jsSpace 0 false,
    .grp 2 (.rep jsDot 1 false)]

/-- Transcription of `/(%\w+)\s*:\s*(.+?)\s*=\s*global_param/`
(`globalParamRegex`, `irParser.ts:106`). -/
def globalParamRegex : RE :=
  seqList [.grp 1 (seqList [.lit ("%"), .rep jsWord 1 false]),
    .rep jsSpace 0 false, .lit (":"), .rep jsSpace 0 false,
    .grp 2 (.rep jsDot 1 true),
    .rep jsSpace 0 false, .lit ("="), .rep jsSpace 0 false,
    .lit ("global_param")]

/-- Transcription of `/witness_table\s+(%\w+)\s*:\s*(.+)/`
(`witnessTableRegex`, `irParser.ts:109`). -/
def witnessTableRegex : RE :=
  seqList [.lit ("witness_table"), .rep jsSpace 1 false,
    .grp 1 (seqList [.lit ("%"), .rep jsWord 1 false]),
    .rep jsSpace 0 false, .lit (":"), .rep jsSpace 0 false,
    .grp 2 (.rep jsDot 1 false)]

/-- Transcription of `/struct\s+(%\w+)\s*:\s*(.+)/` (`structRegex`,
`irParser.ts:112`). -/
def structRegex : RE :=
  seqList [.lit ("struct"), .rep jsSpace 1 false,
    .grp 1 (seqList [.lit ("%"), .rep jsWord 1 false]),
    .rep jsSpace 0 false, .lit (":"), .rep jsSpace 0 false,
    .grp 2 (.rep jsDot 1 false)]

/-- Transcription of `/param\s+(%\w+)\s*:\s*(.+)/` (`paramRegex`,
`irParser.ts:115`). -/
def paramRegex : RE :=
  seqList [.lit ("param"), .rep jsSpace 1 false,
    .grp 1 (seqList [.lit ("%"), .rep jsWord 1 false]),
    .rep jsSpace 0 false, .lit (":"), .rep jsSpace 0 false,
    .grp 2 (.rep jsDot 1 false)]

/-- Transcription of `/^\[(\w+)(?:\((.*)\))?\]$/` (`attributeRegex`,
`irParser.ts:118`); anchored at both ends. -/
def attributeRegex : RE :=
  seqList [.lit ("["), .grp 1 (.rep jsWord 1 false),
    .opt (seqList [.lit ("("), .grp 2 (.rep jsDot 0 false), .lit (")")]),
    .lit ("]")]

/-- Transcription of `/^\s*(\w+)(?:\((.*)\))?/` (`voidOpRegex`,
`irParser.ts:121`); anchored at the start. -/
def voidOpRegex : RE :=
  seqList [.rep jsSpace 0 false, .grp 1 (.rep jsWord 1 false),
    .opt (seqList [.lit ("("), .grp 2 (.rep jsDot 0 false), .lit (")")])]

/-! ## Structured match results for each line shape -/

/-- Result of `cleanLine.match(instructionRegex)` destructured as
`[, id, type, opcode, argsRaw]`.  Groups 1-3 always participate in a
successful match; the final `none` cases are unreachable. -/
def letMatch (s : String) : Option (String × String × String × Option String) :=
  match RESearch instructionRegex s.data with
  | some caps =>
    match capStr caps 1, capStr caps 2, capStr caps 3 with
    | some id, some ty, some opc => some (id, ty, opc, capStr caps 4)
    | _, _, _ => none
  | none => none

/-- Result of `cleanLine.match(blockRegex)` destructured as `[, id]`. -/
def blockMatch (s : String) : Option String :=
  match RESearch blockRegex s.data with
  | some caps => capStr caps 1
  | none => none

/-- Result of `cleanLine.match(funcRegex)` destructured as `[, id, type]`. -/
def funcMatch (s : String) : Option (String × String) :=
  match RESearch funcRegex s.data with
  | some caps =>
    match capStr caps 1, capStr caps 2 with
    | some id, some ty => some (id, ty)
    | _, _ => none
  | none => none

/-- Result of `cleanLine.match(globalParamRegex)` destructured as
`[, id, type]`. -/
def globalParamMatch (s : String) : Option (String × String) :=
  match RESearch globalParamRegex s.data with
  | some caps =>
    match capStr caps 1, capStr caps 2 with
    | some id, some ty => some (id, ty)
    | _, _ => none
  | none => none

/-- Result of `cleanLine.match(witnessTableRegex)` destructured as
`[, id, type]`. -/
def witnessTableMatch (s : String) : Option (String × String) :=
  match RESearch witnessTableRegex s.data with
  | some caps =>
    match capStr caps 1, capStr caps 2 with
    | some id, some ty => some (id, ty)
    | _, _ => none
  | none => none

/-- Result of `cleanLine.match(structRegex)` destructured as `[, id, type]`. -/
def structMatch (s : String) : Option (String × String) :=
  match RESearch structRegex s.data with
  | some caps =>
    match capStr caps 1, capStr caps 2 with
    | some id, some ty => some (id, ty)
    | _, _ => none
  | none => none

/-- Result of `cleanLine.match(paramRegex)` destructured as `[, id, type]`. -/
def paramMatch (s : String) : Option (String × String) :=
  match RESearch paramRegex s.data with
  | some caps =>
    match capStr caps 1, capStr caps 2 with
    | some id, some ty => some (id, ty)
    | _, _ => none
  | none => none

/-- Result of `cleanLine.match(attributeRegex)` destructured as
`[, name, args]`; `args` is `none` when the optional group did not
participate. -/
def attributeMatch (s : String) : Option (String × Option String) :=
  match REMatchFull attributeRegex s.data with
  | some caps =>
    match capStr caps 1 with
    | some name => some (name, capStr caps 2)
    | none => none
  | none => none

/-- Result of `cleanLine.match(voidOpRegex)` destructured as
`[, opcode, argsRaw]`. -/
def voidOpMatch (s : String) : Option (String × Option String) :=
  match REMatchHead voidOpRegex s.data with
  | some caps =>
    match capStr caps 1 with
    | some opc => some (opc, capStr caps 2)
    | none => none
  | none => none

/-! ## Data model (`src/types.ts`) -/

/-- Enumeration `IRNodeType` of `src/types.ts`. -/
inductive IRNodeType where
  | Instruction | Block | Function | Metadata | Variable | Literal
  | Unknown | Struct | Parameter
  deriving DecidableEq, Repr

/-- Interface `IROperand`: the verbatim argument text and the referenced
id, if the text contains one. -/
structure IROperand where
  raw : String
  refId : Option String := none
  deriving DecidableEq, Repr

/-- Interface `IRAttribute`. -/
structure IRAttribute where
  name : String
  args : String
  raw : String
  operands : List IROperand
  deriving DecidableEq, Repr

/-- Interface `IRNode`.  Optional TypeScript fields become `Option`;
`attributes` is set by every node-creating branch of the parser, so it
is a plain list. -/
structure IRNode where
  id : String
  originalLine : String
  type : IRNodeType
  opcode : Option String := none
  dataType : Option String := none
  operands : List IROperand
  lineIndex : Nat
  description : Option String := none
  attributes : List IRAttribute := []
  parentBlockId : Option String := none
  deriving DecidableEq, Repr

/-- One dependency edge `{from, to}` (field `from` is a Lean keyword, so
the fields are named `fromId`/`toId`). -/
structure Edge where
  fromId : String
  toId : String
  deriving DecidableEq, Repr

/-- Interface `ParsedIR`.  The JavaScript `Map` is modelled as an
association list in insertion order (see `mapSet`). -/
structure ParsedIR where
  nodes : List (String × IRNode)
  edges : List Edge
  functions : List String
  rawLines : List String
  deriving DecidableEq, Repr

/-- Interface `IRPass`. -/
structure IRPass where
  name : String
  content : String
  deriving DecidableEq, Repr

/-- JavaScript `Map.prototype.set`: overwrite in place if the key is
present, else append. -/
def mapSet (m : List (String × IRNode)) (k : String) (v : IRNode) :
    List (String × IRNode) :=
  if m.any (fun p => p.1 = k) then
    m.map (fun p => if p.1 = k then (k, v) else p)
  else m ++ [(k, v)]

/-! ## Reference scanners (`findAllReferences`, `processOperand`) -/

mutual

/-- Scanner state outside a candidate reference: looking for `%`.
`scanRefs`/`scanRefsRun` together compute `text.match(/%\w+/g)`: every
non-overlapping leftmost match of `%` followed by a maximal non-empty
run of word characters, left to right. -/
def scanRefs : List Char → List String
  | [] => []
  | c :: rest => if c = '%' then scanRefsRun rest [] else scanRefs rest

/-- Scanner state after a `%`, accumulating the (reversed) word-char run. -/
def scanRefsRun : List Char → List Char → List String
  | [], acc =>
    if acc.isEmpty then [] else [String.mk ('%' :: acc.reverse)]
  | c :: rest, acc =>
    if jsWord c then scanRefsRun rest (c :: acc)
    else if acc.isEmpty then
      (if c = '%' then scanRefsRun rest [] else scanRefs rest)
    else
      String.mk ('%' :: acc.reverse) ::
        (if c = '%' then scanRefsRun rest [] else scanRefs rest)

end

/-- Order-preserving deduplication, i.e. `Array.from(new Set(matches))`:
keeps the first occurrence of each element. -/
def dedupAux : List String → List String → List String
  | [], _ => []
  | x :: xs, seen =>
    if seen.contains x then dedupAux xs seen else x :: dedupAux xs (x :: seen)

/-- JavaScript `Array.from(new Set(l))`. -/
def dedup (l : List String) : List String :=
  dedupAux l []

/-- Helper `findAllReferences` (`irParser.ts:83-87`): all unique `%ID`
references in a string, via `text.match(/%\w+/g)`. -/
def findAllReferences (text : String) : List String :=
  if text = "" then [] else dedup (scanRefs text.data)

/-- First match of `/%(?:[\w\d]+)/`: the leftmost `%` followed by a
non-empty maximal run of word characters. -/
def firstRef : List Char → Option String
  | [] => none
  | c :: rest =>
    if c = '%' then
      let run := rest.takeWhile jsWordOrDigit
      if run.isEmpty then firstRef rest else some (String.mk ('%' :: run))
    else firstRef rest

/-- Helper `processOperand` (`irParser.ts:407-413`). -/
def processOperand (raw : String) : IROperand :=
  match firstRef raw.data with
  | some r => { raw := raw, refId := some r }
  | none => { raw := raw }

/-- Loop of `parseOperands` (`irParser.ts:388-402`): split on commas at
parenthesis depth zero, tracking depth character by character.  The
accumulated current segment is kept reversed. -/
def parseOperandsLoop : List Char → List Char → Int → List IROperand
  | [], current, _ =>
    if jsTrim (String.mk current.reverse) ≠ "" then
      [processOperand (jsTrim (String.mk current.reverse))]
    else []
  | c :: rest, current, depth =>
    let depth := if c = '(' then depth + 1 else depth
    let depth := if c = ')' then depth - 1 else depth
    if c = ',' && depth = 0 then
      processOperand (jsTrim (String.mk current.reverse)) ::
        parseOperandsLoop rest [] depth
    else parseOperandsLoop rest (c :: current) depth

/-- Helper `parseOperands` (`irParser.ts:382-405`). -/
def parseOperands (rawArgs : String) : List IROperand :=
  if rawArgs = "" || jsTrim rawArgs = "" then []
  else parseOperandsLoop rawArgs.data [] 0

/-- JavaScript truthiness guard `args ? parseOperands(args) : []` used
for optional regex groups: an absent or empty capture yields no
operands. -/
def operandsOfArgs (args : Option String) : List IROperand :=
  match args with
  | some a => if a ≠ "" then parseOperands a else []
  | none => []

/-! ## The graph builder `parseSlangIR` (`irParser.ts:89-380`) -/

/-- Mutable scan state of the `lines.forEach` loop: the accumulated
outputs plus the pending-attribute buffer and the currently open block.
The source writes `parentBlockId: currentBlockId || undefined`; since a
block id always comes from a `(%\w+)` capture it is never the empty
string, so the truthiness coercion is the identity and the branches
below store `currentBlockId` directly. -/
structure ScanState where
  nodes : List (String × IRNode)
  edges : List Edge
  functions : List String
  pendingAttributes : List IRAttribute
  currentBlockId : Option String
  deriving DecidableEq, Repr

/-- Initial scan state. -/
def initState : ScanState :=
  { nodes := [], edges := [], functions := [], pendingAttributes := [],
    currentBlockId := none }

/-- Edges contributed by `attachAttributesAndProcessEdges`
(`irParser.ts:127-146`): for each pending attribute, first an edge per
operand that carries a reference, then an edge per deep reference found
in the attribute's raw argument text. -/
def attrEdges (pending : List IRAttribute) (nodeId : String) : List Edge :=
  pending.flatMap (fun attr =>
    (attr.operands.filterMap (fun op => op.refId)).map
        (fun r => { fromId := r, toId := nodeId })
    ++ (findAllReferences attr.args).map (fun r => { fromId := r, toId := nodeId }))

/-- Helper `attachAttributesAndProcessEdges`: returns the attributes to
attach together with the edges they contribute; the caller clears the
pending buffer. -/
def attachAttributesAndProcessEdges (pending : List IRAttribute)
    (nodeId : String) : List IRAttribute × List Edge :=
  (pending, attrEdges pending nodeId)

/-- Edges contributed by an instruction's operand list
(`irParser.ts:188-197` and `361-370`): the primary reference of each
operand, then every deep reference of its raw text other than the
primary one. -/
def operandEdges (operands : List IROperand) (nodeId : String) : List Edge :=
  operands.flatMap (fun op =>
    (match op.refId with
     | some r => [{ fromId := r, toId := nodeId : Edge }]
     | none => [])
    ++ ((findAllReferences op.raw).filter (fun r => op.refId ≠ some r)).map
        (fun r => { fromId := r, toId := nodeId }))

/-- Edges contributed by the deep references of a type annotation. -/
def refEdges (text : String) (nodeId : String) : List Edge :=
  (findAllReferences text).map (fun r => { fromId := r, toId := nodeId })

/-- Branch 1 of the line loop: `let` instructions (`irParser.ts:168-206`). -/
def letBranch (st : ScanState) (line : String) (index : Nat) (id ty opc : String)
    (argsRaw : Option String) : ScanState :=
  let operands := operandsOfArgs argsRaw
  let (attrs, aEdges) := attachAttributesAndProcessEdges st.pendingAttributes id
  let node : IRNode :=
    { id := id, originalLine := line, type := .Instruction,
      dataType := some ty, opcode := some opc, operands := operands,
      lineIndex := index, attributes := attrs,
      parentBlockId := st.currentBlockId }
  { st with
    nodes := mapSet st.nodes id node,
    edges := st.edges ++ aEdges ++ operandEdges operands id ++ refEdges ty id,
    pendingAttributes := [] }

/-- Branch 2: block definitions (`irParser.ts:209-223`); sets the
currently open block. -/
def blockBranch (st : ScanState) (line : String) (index : Nat) (id : String) :
    ScanState :=
  let (attrs, aEdges) := attachAttributesAndProcessEdges st.pendingAttributes id
  let node : IRNode :=
    { id := id, originalLine := line, type := .Block, operands := [],
      lineIndex := index, opcode := some ("block"), attributes := attrs }
  { st with
    currentBlockId := some id,
    nodes := mapSet st.nodes id node,
    edges := st.edges ++ aEdges,
    pendingAttributes := [] }

/-- Branch 3: function definitions (`irParser.ts:226-242`); appends to
the function list and clears the open block. -/
def funcBranch (st : ScanState) (line : String) (index : Nat) (id ty : String) :
    ScanState :=
  let (attrs, aEdges) := attachAttributesAndProcessEdges st.pendingAttributes id
  let node : IRNode :=
    { id := id, originalLine := line, type := .Function, dataType := some ty,
      operands := [], lineIndex := index, opcode := some ("func"),
      attributes := attrs }
  { st with
    functions := st.functions ++ [id],
    currentBlockId := none,
    nodes := mapSet st.nodes id node,
    edges := st.edges ++ aEdges,
    pendingAttributes := [] }

/-- Branch 4: global parameters (`irParser.ts:245-272`); type references
become synthetic operands and edges. -/
def globalParamBranch (st : ScanState) (line : String) (index : Nat)
    (id ty : String) : ScanState :=
  let typeRefs := findAllReferences ty
  let extraOperands := typeRefs.map (fun r => { raw := r, refId := some r : IROperand })
  let (attrs, aEdges) := attachAttributesAndProcessEdges st.pendingAttributes id
  let node : IRNode :=
    { id := id, originalLine := line, type := .Variable, dataType := some ty,
      opcode := some ("global_param"), operands := extraOperands,
      lineIndex := index, attributes := attrs,
      parentBlockId := st.currentBlockId }
  { st with
    nodes := mapSet st.nodes id node,
    edges := st.edges ++ aEdges ++ refEdges ty id,
    pendingAttributes := [] }

/-- Branch 5: witness tables (`irParser.ts:275-301`); a trailing
semicolon is stripped from the type first. -/
def witnessTableBranch (st : ScanState) (line : String) (index : Nat)
    (id ty0 : String) : ScanState :=
  let ty := if strEndsWith ty0 (";") then strDropLast ty0 else ty0
  let typeRefs := findAllReferences ty
  let extraOperands := typeRefs.map (fun r => { raw := r, refId := some r : IROperand })
  let (attrs, aEdges) := attachAttributesAndProcessEdges st.pendingAttributes id
  let node : IRNode :=
    { id := id, originalLine := line, type := .Variable, dataType := some ty,
      opcode := some ("witness_table"), operands := extraOperands,
      lineIndex := index, attributes := attrs,
      parentBlockId := st.currentBlockId }
  { st with
    nodes := mapSet st.nodes id node,
    edges := st.edges ++ aEdges ++ refEdges ty id,
    pendingAttributes := [] }

/-- Branch 6: struct definitions (`irParser.ts:304-318`). -/
def structBranch (st : ScanState) (line : String) (index : Nat) (id ty : String) :
    ScanState :=
  let (attrs, aEdges) := attachAttributesAndProcessEdges st.pendingAttributes id
  let node : IRNode :=
    { id := id, originalLine := line, type := .Struct, dataType := some ty,
      opcode := some ("struct"), operands := [], lineIndex := index,
      attributes := attrs }
  { st with
    nodes := mapSet st.nodes id node,
    edges := st.edges ++ aEdges,
    pendingAttributes := [] }

/-- Branch 7: block parameters (`irParser.ts:321-336`). -/
def paramBranch (st : ScanState) (line : String) (index : Nat) (id ty : String) :
    ScanState :=
  let (attrs, aEdges) := attachAttributesAndProcessEdges st.pendingAttributes id
  let node : IRNode :=
    { id := id, originalLine := line, type := .Parameter, dataType := some ty,
      opcode := some ("param"), operands := [], lineIndex := index,
      attributes := attrs, parentBlockId := st.currentBlockId }
  { st with
    nodes := mapSet st.nodes id node,
    edges := st.edges ++ aEdges,
    pendingAttributes := [] }

/-- Branch 8: standalone void operations (`irParser.ts:339-371`), with
the synthesized id `line_<index>`. -/
def voidOpBranch (st : ScanState) (line : String) (index : Nat) (opc : String)
    (argsRaw : Option String) : ScanState :=
  let operands := operandsOfArgs argsRaw
  let syntheticId := "line_" ++ toString index
  let (attrs, aEdges) :=
    attachAttributesAndProcessEdges st.pendingAttributes syntheticId
  let node : IRNode :=
    { id := syntheticId, originalLine := line, type := .Instruction,
      opcode := some opc, operands := operands, lineIndex := index,
      description := some ("Void Instruction"), attributes := attrs,
      parentBlockId := st.currentBlockId }
  { st with
    nodes := mapSet st.nodes syntheticId node,
    edges := st.edges ++ aEdges ++ operandEdges operands syntheticId,
    pendingAttributes := [] }

/-- Body of the `lines.forEach` loop (`irParser.ts:148-372`): classify
one line in the source's fixed priority order and update the state. -/
def processLine (st : ScanState) (line : String) (index : Nat) : ScanState :=
  let cleanLine := jsTrim line
  if cleanLine = "" || strStartsWith cleanLine ("//") then st
  else if strStartsWith cleanLine ("###") then st
  else
    match attributeMatch cleanLine with
    | some (name, args) =>
      let operands := operandsOfArgs args
      { st with
        pendingAttributes := st.pendingAttributes ++
          [{ name := name, args := args.getD (""), raw := cleanLine,
             operands := operands }] }
    | none =>
      match letMatch cleanLine with
      | some (id, ty, opc, argsRaw) => letBranch st line index id ty opc argsRaw
      | none =>
        match blockMatch cleanLine with
        | some id => blockBranch st line index id
        | none =>
          match funcMatch cleanLine with
          | some (id, ty) => funcBranch st line index id ty
          | none =>
            match globalParamMatch cleanLine with
            | some (id, ty) => globalParamBranch st line index id ty
            | none =>
              match witnessTableMatch cleanLine with
              | some (id, ty) => witnessTableBranch st line index id ty
              | none =>
                match structMatch cleanLine with
                | some (id, ty) => structBranch st line index id ty
                | none =>
                  match paramMatch cleanLine with
                  | some (id, ty) => paramBranch st line index id ty
                  | none =>
                    match voidOpMatch cleanLine with
                    | some (opc, argsRaw) =>
                      if !strContainsChar line '=' then
                        if strStartsWith cleanLine ("[") then st
                        else if strEndsWith cleanLine (":") then st
                        else voidOpBranch st line index opc argsRaw
                      else st
                    | none => st

/-- The indexed `lines.forEach` fold. -/
def scanLines (st : ScanState) (idx : Nat) : List String → ScanState
  | [] => st
  | l :: rest => scanLines (processLine st l idx) (idx + 1) rest

/-- Main entry `parseSlangIR` (`irParser.ts:89-380`). -/
def parseSlangIR (input : String) : ParsedIR :=
  let lines := splitLinesStr input
  let st := scanLines initState 0 lines
  { nodes := st.nodes, edges := st.edges, functions := st.functions,
    rawLines := lines }

/-! ## The pass segmenter `parsePasses` (`irParser.ts:4-79`) -/

/-- Name given to a pass at a boundary (`irParser.ts:38-43`): strip the
leading `###`, trim, strip one trailing colon, default to
"Unnamed Pass" when empty.  `nameLine` is already trimmed. -/
def passBoundaryName (nameLine : String) : String :=
  let name :=
    jsTrim (if strStartsWith nameLine ("###") then
              String.mk (nameLine.data.drop 3)
            else nameLine)
  let name := if strEndsWith name (":") then strDropLast name else name
  if name = "" then "Unnamed Pass" else name

/-- Main loop of `parsePasses` (`irParser.ts:13-71`), including the
final-buffer flush when the line list is exhausted.  The source's
one-line lookahead (`lines[i+1]`) is re-expressed as a look-behind
flag `pendingDelim`: `true` means the previous line trimmed to `###`
and is waiting for a `###`-prefixed name line.  When the flag is up and
the current line does not start (after trimming) with `###`, the
current line cannot itself trim to `###`, so it is an ordinary buffered
line, exactly as in the source's next iteration; a solitary trailing
`###` is dropped, as in the source. -/
def passesLoop : Bool → List String → List String → String → Bool → List IRPass → List IRPass
  | _, [], buffer, currentName, foundAnyPass, passes =>
    if buffer.length > 0 then
      if foundAnyPass && buffer.all (fun l => jsTrim l = "") then passes
      else passes ++ [{ name := currentName, content := joinNl buffer }]
    else passes
  | false, l :: rest, buffer, currentName, foundAnyPass, passes =>
    if jsTrim l = "###" then
      passesLoop true rest buffer currentName foundAnyPass passes
    else passesLoop false rest (buffer ++ [l]) currentName foundAnyPass passes
  | true, next :: rest, buffer, currentName, foundAnyPass, passes =>
    if strStartsWith (jsTrim next) ("###") then
      let passes :=
        if foundAnyPass || buffer.any (fun x => jsTrim x ≠ "") then
          if passes.length = 0 && !foundAnyPass &&
              buffer.all (fun x => jsTrim x = "") then passes
          else passes ++ [{ name := currentName, content := joinNl buffer }]
        else passes
      passesLoop false rest [] (passBoundaryName (jsTrim next)) true passes
    else passesLoop false rest (buffer ++ [next]) currentName foundAnyPass passes

/-- Main entry `parsePasses` (`irParser.ts:4-79`). -/
def parsePasses (input : String) : List IRPass :=
  let lines := splitLinesStr (normalizeEndings input)
  let passes := passesLoop false lines [] ("Source") false []
  if passes.length = 0 then [{ name := "Source", content := input }] else passes

/-! ## Predicates used by the claim statements -/

/-- Shape of a sigil-prefixed identifier as produced by the reference
scanners: a `%` followed by a non-empty run of word characters. -/
def isRefId (s : String) : Bool :=
  match s.data with
  | '%' :: l => !l.isEmpty && l.all jsWord
  | _ => false

/-- A line recognized by none of the `parseSlangIR` line shapes:
not blank or comment, not pass-delimiter residue, not an attribute,
and matching none of the eight entity regex branches (where the void
branch additionally requires no `=` in the raw line, no leading `[`,
and no trailing `:` on the trimmed line). -/
def lineUnrecognized (line : String) : Bool :=
  let cleanLine := jsTrim line
  !(cleanLine = "" || strStartsWith cleanLine ("//")) &&
  !(strStartsWith cleanLine ("###")) &&
  (attributeMatch cleanLine).isNone &&
  (letMatch cleanLine).isNone &&
  (blockMatch cleanLine).isNone &&
  (funcMatch cleanLine).isNone &&
  (globalParamMatch cleanLine).isNone &&
  (witnessTableMatch cleanLine).isNone &&
  (structMatch cleanLine).isNone &&
  (paramMatch cleanLine).isNone &&
  !((voidOpMatch cleanLine).isSome && !(strContainsChar line '=') &&
    !(strStartsWith cleanLine ("[")) && !(strEndsWith cleanLine (":")))

/-- First character of a string is not JavaScript whitespace (vacuously
true for the empty string). -/
def noLeadingSpace (s : String) : Bool :=
  match s.data with
  | [] => true
  | c :: _ => !jsSpace c

/-- A pending-attribute list is well-formed when every reference any of
its operands carries has the `%`-identifier shape. -/
def PendingWF (pending : List IRAttribute) : Prop :=
  ∀ a ∈ pending, ∀ op ∈ a.operands, ∀ r : String, op.refId = some r → isRefId r = true

/-- Invariant maintained by every step of the `parseSlangIR` line loop:
every edge points into a key of the node map, every edge source has the
`%`-identifier shape, and the pending attributes are well-formed. -/
def ScanInv (st : ScanState) : Prop :=
  (∀ e ∈ st.edges, e.toId ∈ st.nodes.map Prod.fst) ∧
  (∀ e ∈ st.edges, isRefId e.fromId = true) ∧
  PendingWF st.pendingAttributes

/-! ## Concrete functional-correctness claims -/

set_option maxHeartbeats 1000000 in
/-- C5: attribute lines accumulate across consecutive bracketed lines
and attach, in source order, to the next entity line: on
`[nameHint("x")] / [layout(%5)] / let %9 : Void = typeLayout` the node
`%9` carries exactly the two attributes in source order and the edge
`(%5, %9)` is present; and pending attributes with no following entity
(the same two attribute lines alone) are dropped, producing no node and
no edge. -/
theorem claim_C5_attribute_attachment :
    ((parseSlangIR ("[nameHint(\"x\")]\n[layout(%5)]\nlet %9 : Void = typeLayout")).nodes.lookup
        ("%9")).map IRNode.attributes =
      some [{ name := "nameHint", args := "\"x\"", raw := "[nameHint(\"x\")]",
              operands := [{ raw := "\"x\"", refId := none }] },
            { name := "layout", args := "%5", raw := "[layout(%5)]",
              operands := [{ raw := "%5", refId := some ("%5") }] }] ∧
    { fromId := "%5", toId := "%9" : Edge } ∈
      (parseSlangIR ("[nameHint(\"x\")]\n[layout(%5)]\nlet %9 : Void = typeLayout")).edges ∧
    (parseSlangIR ("[nameHint(\"x\")]\n[layout(%5)]")).nodes = [] ∧
    (parseSlangIR ("[nameHint(\"x\")]\n[layout(%5)]")).edges = [] ∧
    (parseSlangIR ("[nameHint(\"x\")]\n[layout(%5)]")).functions = [] := by
  decide

/-- C6: `parseOperands` splits on commas only at parenthesis depth zero:
`"makeVector(0, 0), %3"` yields exactly the nested call (no reference)
and `%3` (with reference `%3`). -/
theorem claim_C6_depth_zero_split :
    parseOperands ("makeVector(0, 0), %3") =
      [{ raw := "makeVector(0, 0)", refId := none },
       { raw := "%3", refId := some ("%3") }] := by
  decide

set_option maxHeartbeats 1000000 in
/-- C7: a `store(%26, %25)` line with no `=`, no leading `[` and no
trailing `:` synthesizes an Instruction node `line_<0-based index>`
(here index 1, after a blank line 0) with opcode `store` and edges from
`%26` and `%25` into the synthesized id. -/
theorem claim_C7_void_op_synthesis :
    (parseSlangIR ("\nstore(%26, %25)")).nodes.map Prod.fst = ["line_1"] ∧
    ((parseSlangIR ("\nstore(%26, %25)")).nodes.lookup ("line_1")).map
        (fun n => (n.opcode, n.type, n.description)) =
      some (some ("store"), IRNodeType.Instruction, some ("Void Instruction")) ∧
    (parseSlangIR ("\nstore(%26, %25)")).edges =
      [{ fromId := "%26", toId := "line_1" }, { fromId := "%25", toId := "line_1" }] := by
  decide

set_option maxHeartbeats 1600000 in
/-- C8: a `param` line after a `block %b1(` header (even with an
intervening `let`) is recorded with enclosing block `%b1`; a `func`
header clears the open-block state, so the following top-level `let`
has no enclosing block. -/
theorem claim_C8_block_scope_tracking :
    ((parseSlangIR ("block %b1(\nlet %y : Int = bar\nparam %p : Int\nfunc %g : Func(Void)\nlet %x : Int = foo")).nodes.lookup
        ("%p")).map (fun n => (n.type, n.parentBlockId)) =
      some (IRNodeType.Parameter, some ("%b1")) ∧
    ((parseSlangIR ("block %b1(\nlet %y : Int = bar\nparam %p : Int\nfunc %g : Func(Void)\nlet %x : Int = foo")).nodes.lookup
        ("%y")).map (fun n => n.parentBlockId) = some (some ("%b1")) ∧
    ((parseSlangIR ("block %b1(\nlet %y : Int = bar\nparam %p : Int\nfunc %g : Func(Void)\nlet %x : Int = foo")).nodes.lookup
        ("%x")).map (fun n => (n.type, n.parentBlockId)) =
      some (IRNodeType.Instruction, none) := by
  decide

/-! ## Counterexamples and amended behavior for the segmenter claims -/

/-- C3 counterexample: with `bodyA = "x"` and `bodyB = ""` (neither body
contains a delimiter line) the dump
`###\n###A\nx\n###\n###B\n\n###` yields a single pass, not two: the
all-blank second body is discarded by the trailing-blank-buffer rule,
so the claimed two-pass result is false as stated. -/
theorem claim_C3_counterexample :
    parsePasses ("###\n###A\nx\n###\n###B\n\n###") =
      [{ name := "A", content := "x" }] ∧
    parsePasses ("###\n###A\nx\n###\n###B\n\n###") ≠
      [{ name := "A", content := "x" }, { name := "B", content := "" }] := by
  decide

/-- C4 counterexample: two consecutive delimiter pairs with no content
between them do emit an empty pass once a pass has been opened:
`###\n###A\n###\n###B\nx` produces the pass `A` with empty content. -/
theorem claim_C4_counterexample :
    parsePasses ("###\n###A\n###\n###B\nx") =
      [{ name := "A", content := "" }, { name := "B", content := "x" }] ∧
    { name := "A", content := "" : IRPass } ∈
      parsePasses ("###\n###A\n###\n###B\nx") := by
  decide

/-- C4 amended: only the leading buffer is suppressed — a delimiter pair
at the start of the input preceded solely by blank lines emits no pass,
while a later consecutive delimiter pair emits a pass with empty
content (`A` below). -/
theorem claim_C4_amended_leading_suppression :
    parsePasses ("\n###\n###A\n###\n###B\nx") =
      [{ name := "A", content := "" }, { name := "B", content := "x" }] := by
  decide

/-- C9 counterexample: the code trims before stripping the trailing
colon, so `### P :` names the pass `"P "` — a name carrying trailing
whitespace, contradicting the claimed trim-last order. -/
theorem claim_C9_counterexample :
    parsePasses ("###\n### P :\nx") = [{ name := "P ", content := "x" }] ∧
    strEndsWith (passBoundaryName ("### P :")) (" ") = true := by
  decide

/-! ## Shape lemmas for the reference scanners -/

theorem jsWord_of_wordOrDigit {c : Char} (h : jsWordOrDigit c = true) :
    jsWord c = true := by
  simp only [jsWordOrDigit, jsWord, Char.isAlphanum, Bool.or_eq_true] at h ⊢
  rcases h with h | h
  · exact h
  · exact Or.inl (Or.inr h)

theorem isRefId_mk {l : List Char} (hne : l ≠ []) (hw : ∀ c ∈ l, jsWord c = true) :
    isRefId (String.mk ('%' :: l)) = true := by
  simp only [isRefId, Bool.and_eq_true, List.all_eq_true]
  exact ⟨by simpa using hne, hw⟩

theorem firstRef_isRef : ∀ {l : List Char} {r : String},
    firstRef l = some r → isRefId r = true := by
  intro l
  induction l with
  | nil => intro r h; simp [firstRef] at h
  | cons c rest ih =>
    intro r h
    rw [firstRef] at h
    by_cases hc : c = '%'
    · simp only [hc, if_pos rfl] at h
      by_cases hrun : (rest.takeWhile jsWordOrDigit).isEmpty
      · rw [if_pos hrun] at h
        exact ih h
      · rw [if_neg hrun] at h
        cases h
        refine isRefId_mk (by simpa [List.isEmpty_iff] using hrun) ?_
        intro x hx
        exact jsWord_of_wordOrDigit (List.mem_takeWhile_imp hx)
    · rw [if_neg hc] at h
      exact ih h

theorem scanRefs_bundle :
    ∀ n : Nat, ∀ l : List Char, l.length ≤ n →
      (∀ r ∈ scanRefs l, isRefId r = true) ∧
      (∀ acc : List Char, (∀ c ∈ acc, jsWord c = true) →
        ∀ r ∈ scanRefsRun l acc, isRefId r = true) := by
  intro n
  induction n with
  | zero =>
    intro l hl
    have : l = [] := List.eq_nil_of_length_eq_zero (Nat.le_zero.mp hl)
    subst this
    constructor
    · intro r hr; simp [scanRefs] at hr
    · intro acc hacc r hr
      rw [scanRefsRun] at hr
      by_cases he : acc.isEmpty
      · simp [he] at hr
      · rw [if_neg he] at hr
        rcases List.mem_singleton.mp hr with rfl
        refine isRefId_mk ?_ ?_
        · simp [List.isEmpty_iff] at he
          simpa using he
        · intro c hc
          exact hacc c (List.mem_reverse.mp hc)
  | succ n ih =>
    intro l hl
    cases l with
    | nil => exact ih [] (Nat.zero_le n)
    | cons c rest =>
      have hrest : rest.length ≤ n := Nat.le_of_succ_le_succ hl
      constructor
      · intro r hr
        rw [scanRefs] at hr
        by_cases hc : c = '%'
        · rw [if_pos hc] at hr
          exact (ih rest hrest).2 [] (by intro x hx; cases hx) r hr
        · rw [if_neg hc] at hr
          exact (ih rest hrest).1 r hr
      · intro acc hacc r hr
        rw [scanRefsRun] at hr
        by_cases hw : jsWord c
        · rw [if_pos hw] at hr
          refine (ih rest hrest).2 (c :: acc) ?_ r hr
          intro x hx
          rcases List.mem_cons.mp hx with rfl | hx
          · exact hw
          · exact hacc x hx
        · rw [if_neg hw] at hr
          by_cases he : acc.isEmpty
          · rw [if_pos he] at hr
            by_cases hc : c = '%'
            · rw [if_pos hc] at hr
              exact (ih rest hrest).2 [] (by intro x hx; cases hx) r hr
            · rw [if_neg hc] at hr
              exact (ih rest hrest).1 r hr
          · rw [if_neg he] at hr
            rcases List.mem_cons.mp hr with rfl | hr
            · refine isRefId_mk ?_ ?_
              · simp [List.isEmpty_iff] at he
                simpa using he
              · intro x hx
                exact hacc x (List.mem_reverse.mp hx)
            · by_cases hc : c = '%'
              · rw [if_pos hc] at hr
                exact (ih rest hrest).2 [] (by intro x hx; cases hx) r hr
              · rw [if_neg hc] at hr
                exact (ih rest hrest).1 r hr

theorem scanRefs_isRef {l : List Char} {r : String} (h : r ∈ scanRefs l) :
    isRefId r = true :=
  (scanRefs_bundle l.length l le_rfl).1 r h

theorem dedupAux_subset : ∀ {l seen : List String} {r : String},
    r ∈ dedupAux l seen → r ∈ l := by
  intro l
  induction l with
  | nil => intro seen r h; simp [dedupAux] at h
  | cons x xs ih =>
    intro seen r h
    rw [dedupAux] at h
    by_cases hs : seen.contains x
    · rw [if_pos hs] at h
      exact List.mem_cons_of_mem x (ih h)
    · rw [if_neg hs] at h
      rcases List.mem_cons.mp h with rfl | h
      · exact List.mem_cons_self r xs
      · exact List.mem_cons_of_mem x (ih h)

theorem findAllReferences_isRef {t : String} {r : String}
    (h : r ∈ findAllReferences t) : isRefId r = true := by
  rw [findAllReferences] at h
  by_cases ht : t = ""
  · simp [ht] at h
  · rw [if_neg ht] at h
    exact scanRefs_isRef (dedupAux_subset h)

theorem processOperand_refId {raw r : String}
    (h : (processOperand raw).refId = some r) : isRefId r = true := by
  rw [processOperand] at h
  cases hf : firstRef raw.data with
  | none => rw [hf] at h; cases h
  | some r0 =>
    rw [hf] at h
    cases h
    exact firstRef_isRef hf

theorem parseOperandsLoop_refs :
    ∀ {chars current : List Char} {depth : Int} {op : IROperand} {r : String},
      op ∈ parseOperandsLoop chars current depth → op.refId = some r →
      isRefId r = true := by
  intro chars
  induction chars with
  | nil =>
    intro current depth op r hop hr
    rw [parseOperandsLoop] at hop
    by_cases hc : jsTrim (String.mk current.reverse) ≠ ""
    · rw [if_pos hc] at hop
      rcases List.mem_singleton.mp hop with rfl
      exact processOperand_refId hr
    · simp [if_neg hc] at hop
  | cons c rest ih =>
    intro current depth op r hop hr
    rw [parseOperandsLoop] at hop
    by_cases hsplit : (c = ',' && decide ((if c = ')' then (if c = '(' then depth + 1 else depth) - 1
        else if c = '(' then depth + 1 else depth) = 0)) = true
    · rw [if_pos hsplit] at hop
      rcases List.mem_cons.mp hop with rfl | hop
      · exact processOperand_refId hr
      · exact ih hop hr
    · rw [if_neg hsplit] at hop
      exact ih hop hr

theorem parseOperands_refs {rawArgs : String} {op : IROperand} {r : String}
    (hop : op ∈ parseOperands rawArgs) (hr : op.refId = some r) :
    isRefId r = true := by
  rw [parseOperands] at hop
  by_cases hc : (rawArgs = "" || jsTrim rawArgs = "") = true
  · simp [hc] at hop
  · rw [if_neg (by simpa using hc)] at hop
    exact parseOperandsLoop_refs hop hr

theorem operandsOfArgs_refs {args : Option String} {op : IROperand} {r : String}
    (hop : op ∈ operandsOfArgs args) (hr : op.refId = some r) :
    isRefId r = true := by
  cases args with
  | none => simp [operandsOfArgs] at hop
  | some a =>
    rw [operandsOfArgs] at hop
    by_cases ha : a ≠ ""
    · rw [if_pos ha] at hop
      exact parseOperands_refs hop hr
    · simp [if_neg ha] at hop

/-! ## Key-set lemmas for the node map -/

theorem mem_keys_mapSet_self (m : List (String × IRNode)) (k : String) (v : IRNode) :
    k ∈ (mapSet m k v).map Prod.fst := by
  rw [mapSet]
  by_cases h : m.any (fun p => p.1 = k)
  · rw [if_pos h]
    rcases List.any_eq_true.mp h with ⟨p, hp, hpk⟩
    refine List.mem_map.mpr ⟨(k, v), ?_, rfl⟩
    refine List.mem_map.mpr ⟨p, hp, ?_⟩
    simp only [decide_eq_true_eq] at hpk
    rw [if_pos hpk]
  · rw [if_neg h]
    simp

theorem mem_keys_mapSet_of {m : List (String × IRNode)} {a : String}
    (k : String) (v : IRNode) (h : a ∈ m.map Prod.fst) :
    a ∈ (mapSet m k v).map Prod.fst := by
  rw [mapSet]
  rcases List.mem_map.mp h with ⟨p, hp, hpa⟩
  by_cases hm : m.any (fun p => p.1 = k)
  · rw [if_pos hm]
    by_cases hpk : p.1 = k
    · refine List.mem_map.mpr ⟨(k, v), List.mem_map.mpr ⟨p, hp, by rw [if_pos hpk]⟩, ?_⟩
      simp [← hpa, hpk]
    · exact List.mem_map.mpr ⟨p, List.mem_map.mpr ⟨p, hp, by rw [if_neg hpk]⟩, hpa⟩
  · rw [if_neg hm]
    exact List.mem_map.mpr ⟨p, List.mem_append_left _ hp, hpa⟩

/-! ## Per-branch edge lemmas -/

theorem attrEdges_toId {pending : List IRAttribute} {nodeId : String} {e : Edge}
    (h : e ∈ attrEdges pending nodeId) : e.toId = nodeId := by
  rw [attrEdges] at h
  rcases List.mem_flatMap.mp h with ⟨attr, -, hm⟩
  rcases List.mem_append.mp hm with hm | hm <;>
    rcases List.mem_map.mp hm with ⟨r, -, rfl⟩ <;> rfl

theorem operandEdges_toId {operands : List IROperand} {nodeId : String} {e : Edge}
    (h : e ∈ operandEdges operands nodeId) : e.toId = nodeId := by
  rw [operandEdges] at h
  rcases List.mem_flatMap.mp h with ⟨op, -, hm⟩
  rcases List.mem_append.mp hm with hm | hm
  · cases hr : op.refId with
    | none => rw [hr] at hm; cases hm
    | some r =>
      rw [hr] at hm
      rcases List.mem_singleton.mp hm with rfl
      rfl
  · rcases List.mem_map.mp hm with ⟨r, -, rfl⟩
    rfl

theorem refEdges_toId {text nodeId : String} {e : Edge}
    (h : e ∈ refEdges text nodeId) : e.toId = nodeId := by
  rw [refEdges] at h
  rcases List.mem_map.mp h with ⟨r, -, rfl⟩
  rfl


theorem attrEdges_fromId {pending : List IRAttribute} {nodeId : String} {e : Edge}
    (hwf : PendingWF pending) (h : e ∈ attrEdges pending nodeId) :
    isRefId e.fromId = true := by
  rw [attrEdges] at h
  rcases List.mem_flatMap.mp h with ⟨attr, hattr, hm⟩
  rcases List.mem_append.mp hm with hm | hm
  · rcases List.mem_map.mp hm with ⟨r, hr, rfl⟩
    rcases List.mem_filterMap.mp hr with ⟨op, hop, hro⟩
    exact hwf attr hattr op hop r hro
  · rcases List.mem_map.mp hm with ⟨r, hr, rfl⟩
    exact findAllReferences_isRef hr

theorem operandEdges_fromId {operands : List IROperand} {nodeId : String} {e : Edge}
    (hops : ∀ op ∈ operands, ∀ r : String, op.refId = some r → isRefId r = true)
    (h : e ∈ operandEdges operands nodeId) : isRefId e.fromId = true := by
  rw [operandEdges] at h
  rcases List.mem_flatMap.mp h with ⟨op, hop, hm⟩
  rcases List.mem_append.mp hm with hm | hm
  · cases hr : op.refId with
    | none => rw [hr] at hm; cases hm
    | some r =>
      rw [hr] at hm
      rcases List.mem_singleton.mp hm with rfl
      exact hops op hop r hr
  · rcases List.mem_map.mp hm with ⟨r, hr, rfl⟩
    exact findAllReferences_isRef (List.mem_filter.mp hr).1

theorem refEdges_fromId {text nodeId : String} {e : Edge}
    (h : e ∈ refEdges text nodeId) : isRefId e.fromId = true := by
  rw [refEdges] at h
  rcases List.mem_map.mp h with ⟨r, hr, rfl⟩
  exact findAllReferences_isRef hr

/-! ## The scan invariant -/


theorem scanInv_addNode {st : ScanState} (h : ScanInv st)
    (id : String) (v : IRNode) (newE : List Edge)
    (fns : List String) (blk : Option String)
    (hto : ∀ e ∈ newE, e.toId = id)
    (hfrom : ∀ e ∈ newE, isRefId e.fromId = true) :
    ScanInv { nodes := mapSet st.nodes id v,
              edges := st.edges ++ newE,
              functions := fns, pendingAttributes := [], currentBlockId := blk } := by
  refine ⟨?_, ?_, ?_⟩
  · intro e he
    rcases List.mem_append.mp he with he | he
    · exact mem_keys_mapSet_of id v (h.1 e he)
    · rw [hto e he]
      exact mem_keys_mapSet_self st.nodes id v
  · intro e he
    rcases List.mem_append.mp he with he | he
    · exact h.2.1 e he
    · exact hfrom e he
  · intro a ha
    cases ha

theorem letBranch_inv (st : ScanState) (line : String) (index : Nat)
    (id ty opc : String) (argsRaw : Option String) (h : ScanInv st) :
    ScanInv (letBranch st line index id ty opc argsRaw) := by
  simp only [letBranch, attachAttributesAndProcessEdges]
  rw [List.append_assoc, List.append_assoc, ← List.append_assoc
    (attrEdges st.pendingAttributes id)]
  refine scanInv_addNode h id _ _ _ _ ?_ ?_
  · intro e he
    rcases List.mem_append.mp he with he | he
    · rcases List.mem_append.mp he with he | he
      · exact attrEdges_toId he
      · exact operandEdges_toId he
    · exact refEdges_toId he
  · intro e he
    rcases List.mem_append.mp he with he | he
    · rcases List.mem_append.mp he with he | he
      · exact attrEdges_fromId h.2.2 he
      · exact operandEdges_fromId (fun op hop r hr => operandsOfArgs_refs hop hr) he
    · exact refEdges_fromId he

theorem blockBranch_inv (st : ScanState) (line : String) (index : Nat)
    (id : String) (h : ScanInv st) :
    ScanInv (blockBranch st line index id) := by
  simp only [blockBranch, attachAttributesAndProcessEdges]
  refine scanInv_addNode h id _ _ _ _ ?_ ?_
  · intro e he; exact attrEdges_toId he
  · intro e he; exact attrEdges_fromId h.2.2 he

theorem funcBranch_inv (st : ScanState) (line : String) (index : Nat)
    (id ty : String) (h : ScanInv st) :
    ScanInv (funcBranch st line index id ty) := by
  simp only [funcBranch, attachAttributesAndProcessEdges]
  refine scanInv_addNode h id _ _ _ _ ?_ ?_
  · intro e he; exact attrEdges_toId he
  · intro e he; exact attrEdges_fromId h.2.2 he

theorem globalParamBranch_inv (st : ScanState) (line : String) (index : Nat)
    (id ty : String) (h : ScanInv st) :
    ScanInv (globalParamBranch st line index id ty) := by
  simp only [globalParamBranch, attachAttributesAndProcessEdges]
  rw [List.append_assoc]
  refine scanInv_addNode h id _ _ _ _ ?_ ?_
  · intro e he
    rcases List.mem_append.mp he with he | he
    · exact attrEdges_toId he
    · exact refEdges_toId he
  · intro e he
    rcases List.mem_append.mp he with he | he
    · exact attrEdges_fromId h.2.2 he
    · exact refEdges_fromId he

theorem witnessTableBranch_inv (st : ScanState) (line : String) (index : Nat)
    (id ty0 : String) (h : ScanInv st) :
    ScanInv (witnessTableBranch st line index id ty0) := by
  simp only [witnessTableBranch, attachAttributesAndProcessEdges]
  rw [List.append_assoc]
  refine scanInv_addNode h id _ _ _ _ ?_ ?_
  · intro e he
    rcases List.mem_append.mp he with he | he
    · exact attrEdges_toId he
    · exact refEdges_toId he
  · intro e he
    rcases List.mem_append.mp he with he | he
    · exact attrEdges_fromId h.2.2 he
    · exact refEdges_fromId he

theorem structBranch_inv (st : ScanState) (line : String) (index : Nat)
    (id ty : String) (h : ScanInv st) :
    ScanInv (structBranch st line index id ty) := by
  simp only [structBranch, attachAttributesAndProcessEdges]
  refine scanInv_addNode h id _ _ _ _ ?_ ?_
  · intro e he; exact attrEdges_toId he
  · intro e he; exact attrEdges_fromId h.2.2 he

theorem paramBranch_inv (st : ScanState) (line : String) (index : Nat)
    (id ty : String) (h : ScanInv st) :
    ScanInv (paramBranch st line index id ty) := by
  simp only [paramBranch, attachAttributesAndProcessEdges]
  refine scanInv_addNode h id _ _ _ _ ?_ ?_
  · intro e he; exact attrEdges_toId he
  · intro e he; exact attrEdges_fromId h.2.2 he

theorem voidOpBranch_inv (st : ScanState) (line : String) (index : Nat)
    (opc : String) (argsRaw : Option String) (h : ScanInv st) :
    ScanInv (voidOpBranch st line index opc argsRaw) := by
  simp only [voidOpBranch, attachAttributesAndProcessEdges]
  rw [List.append_assoc]
  refine scanInv_addNode h _ _ _ _ _ ?_ ?_
  · intro e he
    rcases List.mem_append.mp he with he | he
    · exact attrEdges_toId he
    · exact operandEdges_toId he
  · intro e he
    rcases List.mem_append.mp he with he | he
    · exact attrEdges_fromId h.2.2 he
    · exact operandEdges_fromId (fun op hop r hr => operandsOfArgs_refs hop hr) he

theorem processLine_inv (st : ScanState) (line : String) (index : Nat)
    (h : ScanInv st) : ScanInv (processLine st line index) := by
  rw [processLine]
  split
  · exact h
  split
  · exact h
  split
  · rename_i name args heq
    refine ⟨h.1, h.2.1, ?_⟩
    intro a ha op hop r hr
    rcases List.mem_append.mp ha with ha | ha
    · exact h.2.2 a ha op hop r hr
    · rcases List.mem_singleton.mp ha with rfl
      exact operandsOfArgs_refs hop hr
  split
  · rename_i id ty opc argsRaw heq
    exact letBranch_inv st line index id ty opc argsRaw h
  split
  · rename_i id heq
    exact blockBranch_inv st line index id h
  split
  · rename_i id ty heq
    exact funcBranch_inv st line index id ty h
  split
  · rename_i id ty heq
    exact globalParamBranch_inv st line index id ty h
  split
  · rename_i id ty heq
    exact witnessTableBranch_inv st line index id ty h
  split
  · rename_i id ty heq
    exact structBranch_inv st line index id ty h
  split
  · rename_i id ty heq
    exact paramBranch_inv st line index id ty h
  split
  · rename_i opc argsRaw heq
    split
    · split
      · exact h
      · split
        · exact h
        · exact voidOpBranch_inv st line index opc argsRaw h
    · exact h
  · exact h

theorem scanLines_inv :
    ∀ (ls : List String) (st : ScanState) (idx : Nat),
      ScanInv st → ScanInv (scanLines st idx ls) := by
  intro ls
  induction ls with
  | nil => intro st idx h; exact h
  | cons l rest ih =>
    intro st idx h
    rw [scanLines]
    exact ih _ _ (processLine_inv st l idx h)

theorem parseSlangIR_inv (input : String) :
    (∀ e ∈ (parseSlangIR input).edges,
        e.toId ∈ (parseSlangIR input).nodes.map Prod.fst) ∧
    (∀ e ∈ (parseSlangIR input).edges, isRefId e.fromId = true) := by
  have h0 : ScanInv initState := by
    refine ⟨?_, ?_, ?_⟩ <;> intro e he <;> cases he
  have h := scanLines_inv (splitLinesStr input) initState 0 h0
  exact ⟨h.1, h.2.1⟩

/-! ## Invariant claims C1 and C10 -/

/-- C1: for every input, every edge produced by `parseSlangIR` points to
a key of the returned node map, while the edge source need not be a key
(the concrete conjunct exhibits a recorded edge from the undefined
reference `%2`). -/
theorem claim_C1_edge_targets_in_node_map :
    (∀ input : String, ∀ e ∈ (parseSlangIR input).edges,
        e.toId ∈ (parseSlangIR input).nodes.map Prod.fst) ∧
    ({ fromId := "%2", toId := "%1" : Edge } ∈
        (parseSlangIR ("let %1 : T = f(%2)")).edges ∧
      "%2" ∉ (parseSlangIR ("let %1 : T = f(%2)")).nodes.map Prod.fst) := by
  refine ⟨fun input => (parseSlangIR_inv input).1, ?_, ?_⟩ <;> decide

/-- C1 witness: the universal part applied at a concrete input and edge. -/
theorem claim_C1_edge_targets_witness :
    "%1" ∈ (parseSlangIR ("let %1 : T = f(%2)")).nodes.map Prod.fst :=
  claim_C1_edge_targets_in_node_map.1 ("let %1 : T = f(%2)")
    { fromId := "%2", toId := "%1" } (by decide)

theorem isRefId_head {s : String} (h : isRefId s = true) :
    ∃ l, s.data = '%' :: l := by
  rw [isRefId] at h
  split at h
  · rename_i l heq
    exact ⟨l, heq⟩
  · cases h

/-- C10: every edge source produced by `parseSlangIR` is a
sigil-prefixed identifier (`%` followed by word characters), so a
synthesized void-operation id `line_<k>` never occurs as an edge
source. -/
theorem claim_C10_edge_sources_are_refs :
    ∀ input : String, ∀ e ∈ (parseSlangIR input).edges,
      isRefId e.fromId = true ∧ ∀ k : Nat, e.fromId ≠ "line_" ++ toString k := by
  intro input e he
  have h := (parseSlangIR_inv input).2 e he
  refine ⟨h, ?_⟩
  intro k hk
  obtain ⟨l, hl⟩ := isRefId_head h
  rw [hk] at hl
  have hd : ("line_" ++ toString k).data =
      'l' :: 'i' :: 'n' :: 'e' :: '_' :: (toString k).data := by
    rw [String.data_append]
    rfl
  rw [hd] at hl
  cases hl

/-- C10 witness: applied at a concrete input and edge. -/
theorem claim_C10_edge_sources_witness :
    isRefId (Edge.fromId { fromId := "%26", toId := "line_1" }) = true ∧
    ∀ k : Nat, Edge.fromId { fromId := "%26", toId := "line_1" } ≠
      "line_" ++ toString k :=
  claim_C10_edge_sources_are_refs ("\nstore(%26, %25)")
    { fromId := "%26", toId := "line_1" } (by decide)

/-! ## Graceful degradation (C2) -/

theorem lineUnrecognized_inert {line : String}
    (h : lineUnrecognized line = true) :
    ∀ (st : ScanState) (index : Nat), processLine st line index = st := by
  intro st index
  simp only [lineUnrecognized, Bool.and_eq_true, Bool.not_eq_true',
    Option.isNone_iff_eq_none] at h
  obtain ⟨⟨⟨⟨⟨⟨⟨⟨⟨⟨h1, h2⟩, h3⟩, h4⟩, h5⟩, h6⟩, h7⟩, h8⟩, h9⟩, h10⟩, h11⟩ := h
  rw [processLine]
  simp only [h1, h2, h3, h4, h5, h6, h7, h8, h9, h10, Bool.false_eq_true,
    if_false]
  split
  · rename_i opc args heq
    rw [heq] at h11
    simp only [Option.isSome_some, Bool.true_and] at h11
    by_cases hc : strContainsChar line '=' = true
    · simp [hc]
    · rw [Bool.not_eq_true] at hc
      by_cases hs : strStartsWith (jsTrim line) ("[") = true
      · simp [hc, hs]
      · rw [Bool.not_eq_true] at hs
        by_cases hend : strEndsWith (jsTrim line) (":") = true
        · simp [hc, hs, hend]
        · rw [Bool.not_eq_true] at hend
          exfalso
          simp [hc, hs, hend] at h11
  · rfl

theorem scanLines_inert :
    ∀ (ls : List String), (∀ l ∈ ls, lineUnrecognized l = true) →
      ∀ (st : ScanState) (idx : Nat), scanLines st idx ls = st := by
  intro ls
  induction ls with
  | nil => intro _ st idx; rfl
  | cons l rest ih =>
    intro h st idx
    rw [scanLines, lineUnrecognized_inert (h l (List.mem_cons_self l rest)) st idx]
    exact ih (fun x hx => h x (List.mem_cons_of_mem l hx)) st (idx + 1)

/-- C2: an input every line of which matches none of the recognized
shapes parses to an empty node map, an empty edge list and an empty
function list (and, being a total function, the parse cannot raise). -/
theorem claim_C2_graceful_degradation :
    ∀ input : String,
      (∀ l ∈ splitLinesStr input, lineUnrecognized l = true) →
      (parseSlangIR input).nodes = [] ∧ (parseSlangIR input).edges = [] ∧
      (parseSlangIR input).functions = [] := by
  intro input h
  have hs := scanLines_inert (splitLinesStr input) h initState 0
  rw [parseSlangIR]
  rw [hs]
  exact ⟨rfl, rfl, rfl⟩

/-- C2 witness: the theorem applied to a concrete all-gibberish input. -/
theorem claim_C2_graceful_degradation_witness :
    (parseSlangIR ("@@@@\n?? ??\n-+-+-")).nodes = [] ∧
    (parseSlangIR ("@@@@\n?? ??\n-+-+-")).edges = [] ∧
    (parseSlangIR ("@@@@\n?? ??\n-+-+-")).functions = [] :=
  claim_C2_graceful_degradation ("@@@@\n?? ??\n-+-+-") (by decide)

/-! ## Split/join/normalization lemmas for the segmenter -/

theorem splitNl_ne_nil : ∀ l : List Char, splitNl l ≠ [] := by
  intro l
  induction l with
  | nil => simp [splitNl]
  | cons c rest ih =>
    rw [splitNl]
    by_cases hc : c = '\n'
    · simp [hc]
    · rw [if_neg hc]
      cases hsr : splitNl rest with
      | nil => exact absurd hsr ih
      | cons h t => simp

theorem splitNl_append : ∀ a b : List Char, splitNl (a ++ '\n' :: b) = splitNl a ++ splitNl b := by
  intro a b
  induction a with
  | nil => simp [splitNl]
  | cons c rest ih =>
    rw [List.cons_append, splitNl]
    by_cases hc : c = '\n'
    · rw [if_pos hc, ih, splitNl, if_pos hc]
      rfl
    · rw [if_neg hc, ih]
      cases hsr : splitNl rest with
      | nil => exact absurd hsr (splitNl_ne_nil rest)
      | cons h t =>
        rw [splitNl, if_neg hc, hsr]
        rfl

theorem joinNlChars_splitNl : ∀ l : List Char, joinNlChars (splitNl l) = l := by
  intro l
  induction l with
  | nil => rfl
  | cons c rest ih =>
    rw [splitNl]
    by_cases hc : c = '\n'
    · rw [if_pos hc]
      cases hsr : splitNl rest with
      | nil => exact absurd hsr (splitNl_ne_nil rest)
      | cons h t =>
        rw [joinNlChars, ← hsr, ih, hc]
        · rfl
        · simp
    · rw [if_neg hc]
      cases hsr : splitNl rest with
      | nil => exact absurd hsr (splitNl_ne_nil rest)
      | cons h t =>
        cases t with
        | nil =>
          rw [joinNlChars]
          rw [hsr] at ih
          rw [joinNlChars] at ih
          rw [ih]
        | cons x xs =>
          rw [joinNlChars]
          · rw [hsr] at ih
            rw [joinNlChars] at ih
            · rw [List.cons_append, ih]
            · simp
          · simp

theorem normalizeEndingsChars_of_noCR : ∀ l : List Char, '\r' ∉ l →
    normalizeEndingsChars l = l := by
  intro l
  induction l with
  | nil => intro _; rfl
  | cons c rest ih =>
    intro h
    have hrest : '\r' ∉ rest := fun hh => h (List.mem_cons_of_mem c hh)
    rw [normalizeEndingsChars.eq_def]
    split
    · rename_i r heq
      exact absurd (heq ▸ List.mem_cons_self '\r' ('\n' :: r) : '\r' ∈ c :: rest) h
    · rename_i c2 r hno heq
      cases heq
      rw [ih hrest]
    · rename_i hno heq
      cases heq

theorem joinNl_splitLinesStr (s : String) :
    joinNl (splitLinesStr s) = s := by
  rw [joinNl, splitLinesStr, List.map_map]
  have : (String.data ∘ String.mk) = id := rfl
  rw [this, List.map_id, joinNlChars_splitNl]

theorem splitLinesStr_ne_nil (s : String) : splitLinesStr s ≠ [] := by
  rw [splitLinesStr]
  intro h
  exact splitNl_ne_nil s.data (List.map_eq_nil_iff.mp h)

/-! ## Loop lemmas for the segmenter -/

theorem passesLoop_buffer_run :
    ∀ (ls rest buf : List String) (nm : String) (fa : Bool) (ps : List IRPass),
      (∀ x ∈ ls, jsTrim x ≠ "###") →
      passesLoop false (ls ++ rest) buf nm fa ps =
        passesLoop false rest (buf ++ ls) nm fa ps := by
  intro ls
  induction ls with
  | nil => intro rest buf nm fa ps _; simp
  | cons l tl ih =>
    intro rest buf nm fa ps h
    have hl : jsTrim l ≠ "###" := h l (List.mem_cons_self l tl)
    rw [List.cons_append, passesLoop, if_neg hl,
      ih rest (buf ++ [l]) nm fa ps (fun x hx => h x (List.mem_cons_of_mem l hx))]
    simp

theorem normalizeEndings_of_noCR {s : String} (h : '\r' ∉ s.data) :
    normalizeEndings s = s := by
  rw [normalizeEndings, normalizeEndingsChars_of_noCR s.data h]

theorem passesLoop_step_delim {l : String} (hl : jsTrim l = "###")
    (rest buf : List String) (nm : String) (fa : Bool) (ps : List IRPass) :
    passesLoop false (l :: rest) buf nm fa ps = passesLoop true rest buf nm fa ps := by
  rw [passesLoop, if_pos hl]

theorem passesLoop_step_boundary_first {next : String}
    (hn : strStartsWith (jsTrim next) ("###") = true)
    (rest : List String) (nm : String) (ps : List IRPass) :
    passesLoop true (next :: rest) [] nm false ps =
      passesLoop false rest [] (passBoundaryName (jsTrim next)) true ps := by
  rw [passesLoop, if_pos hn]
  simp

theorem passesLoop_step_boundary_opened {next : String}
    (hn : strStartsWith (jsTrim next) ("###") = true)
    (rest buf : List String) (nm : String) (ps : List IRPass) :
    passesLoop true (next :: rest) buf nm true ps =
      passesLoop false rest [] (passBoundaryName (jsTrim next)) true
        (ps ++ [{ name := nm, content := joinNl buf }]) := by
  rw [passesLoop, if_pos hn]
  simp

theorem passesLoop_finish_opened {buf : List String}
    (hnb : ∃ x ∈ buf, jsTrim x ≠ "") (b : Bool) (nm : String) (ps : List IRPass) :
    passesLoop b [] buf nm true ps = ps ++ [{ name := nm, content := joinNl buf }] := by
  obtain ⟨x, hx, hxne⟩ := hnb
  rw [passesLoop]
  have hne : buf ≠ [] := fun hh => by subst hh; cases hx
  rw [if_pos (by simpa [List.length_pos] using hne)]
  rw [if_neg ?_]
  simp only [Bool.true_and, Bool.and_eq_true, List.all_eq_true, decide_eq_true_eq]
  intro hall
  exact hxne (hall x hx)

theorem passesLoop_finish_notfound {buf : List String} (hne : buf ≠ [])
    (b : Bool) (nm : String) (ps : List IRPass) :
    passesLoop b [] buf nm false ps = ps ++ [{ name := nm, content := joinNl buf }] := by
  rw [passesLoop]
  rw [if_pos (by simpa [List.length_pos] using hne)]
  rw [if_neg ?_]
  simp

theorem c3_input_lines (bodyA bodyB : String)
    (hA : '\r' ∉ bodyA.data) (hB : '\r' ∉ bodyB.data) :
    splitLinesStr (normalizeEndings
        ("###\n###A\n" ++ bodyA ++ "\n###\n###B\n" ++ bodyB ++ "\n###")) =
      "###" :: "###A" :: (splitLinesStr bodyA ++
        "###" :: "###B" :: (splitLinesStr bodyB ++ ["###"])) := by
  have hdata : ("###\n###A\n" ++ bodyA ++ "\n###\n###B\n" ++ bodyB ++ "\n###").data =
      ['#', '#', '#'] ++ '\n' :: (['#', '#', '#', 'A'] ++ '\n' :: (bodyA.data ++
        '\n' :: (['#', '#', '#'] ++ '\n' :: (['#', '#', '#', 'B'] ++
          '\n' :: (bodyB.data ++ '\n' :: ['#', '#', '#']))))) := by
    simp only [String.data_append, List.append_assoc]
    rfl
  have hnoCR : '\r' ∉
      ("###\n###A\n" ++ bodyA ++ "\n###\n###B\n" ++ bodyB ++ "\n###").data := by
    rw [hdata]
    simp [hA, hB]
  rw [normalizeEndings_of_noCR hnoCR, splitLinesStr, hdata,
    splitNl_append, splitNl_append, splitNl_append, splitNl_append,
    splitNl_append, splitNl_append]
  have h1 : splitNl ['#', '#', '#'] = [['#', '#', '#']] := rfl
  have h2 : splitNl ['#', '#', '#', 'A'] = [['#', '#', '#', 'A']] := rfl
  have h3 : splitNl ['#', '#', '#', 'B'] = [['#', '#', '#', 'B']] := rfl
  rw [h1, h2, h3]
  simp [splitLinesStr, List.map_append]

/-- C3 amended: the two-pass round trip holds once the bodies contain no
carriage returns and no line trimming to `###`, and the second body has
at least one non-blank line (an all-blank trailing body is dropped, as
the counterexample shows); and the single-pass fallback holds for
inputs with no carriage returns in which no line trims to `###`. -/
theorem claim_C3_amended_pass_segmentation :
    (∀ bodyA bodyB : String,
      (∀ l ∈ splitLinesStr bodyA, jsTrim l ≠ "###") →
      (∀ l ∈ splitLinesStr bodyB, jsTrim l ≠ "###") →
      '\r' ∉ bodyA.data → '\r' ∉ bodyB.data →
      (∃ l ∈ splitLinesStr bodyB, jsTrim l ≠ "") →
      parsePasses ("###\n###A\n" ++ bodyA ++ "\n###\n###B\n" ++ bodyB ++ "\n###") =
        [{ name := "A", content := bodyA }, { name := "B", content := bodyB }]) ∧
    (∀ s : String, '\r' ∉ s.data →
      (∀ l ∈ splitLinesStr s, jsTrim l ≠ "###") →
      parsePasses s = [{ name := "Source", content := s }]) := by
  constructor
  · intro bodyA bodyB hAd hBd hAr hBr hBnb
    simp only [parsePasses]
    rw [c3_input_lines bodyA bodyB hAr hBr]
    rw [passesLoop_step_delim (show jsTrim ("###") = "###" by decide)]
    rw [passesLoop_step_boundary_first
      (show strStartsWith (jsTrim ("###A")) ("###") = true by decide)]
    rw [show passBoundaryName (jsTrim ("###A")) = "A" from by decide]
    rw [passesLoop_buffer_run _ _ _ _ _ _ hAd]
    simp only [List.nil_append]
    rw [passesLoop_step_delim (show jsTrim ("###") = "###" by decide)]
    rw [passesLoop_step_boundary_opened
      (show strStartsWith (jsTrim ("###B")) ("###") = true by decide)]
    rw [show passBoundaryName (jsTrim ("###B")) = "B" from by decide]
    rw [joinNl_splitLinesStr]
    rw [passesLoop_buffer_run _ _ _ _ _ _ hBd]
    simp only [List.nil_append]
    rw [passesLoop_step_delim (show jsTrim ("###") = "###" by decide)]
    rw [passesLoop_finish_opened hBnb]
    rw [joinNl_splitLinesStr]
    simp
  · intro s hr hnd
    simp only [parsePasses]
    rw [normalizeEndings_of_noCR hr]
    have hrun := passesLoop_buffer_run (splitLinesStr s) [] [] ("Source") false [] hnd
    rw [List.append_nil] at hrun
    rw [hrun]
    simp only [List.nil_append]
    rw [passesLoop_finish_notfound (splitLinesStr_ne_nil s)]
    rw [joinNl_splitLinesStr]
    simp

/-- C3 witness: the amended theorem applied at concrete bodies and at a
concrete marker-free input. -/
theorem claim_C3_amended_witness :
    parsePasses ("###\n###A\nx1\ny1\n###\n###B\nz2\n###") =
      [{ name := "A", content := "x1\ny1" }, { name := "B", content := "z2" }] ∧
    parsePasses ("alpha\nbeta") = [{ name := "Source", content := "alpha\nbeta" }] :=
  ⟨claim_C3_amended_pass_segmentation.1 ("x1\ny1") ("z2")
      (by decide) (by decide) (by decide) (by decide) (by decide),
    claim_C3_amended_pass_segmentation.2 ("alpha\nbeta") (by decide) (by decide)⟩

/-! ## Pass-name lemmas (C9) -/

theorem head_dropWhile_not {p : Char → Bool} :
    ∀ {l : List Char} {c : Char}, (l.dropWhile p).head? = some c → p c = false := by
  intro l
  induction l with
  | nil => intro c h; simp [List.dropWhile] at h
  | cons x xs ih =>
    intro c h
    rw [List.dropWhile] at h
    by_cases hx : p x
    · rw [hx] at h
      exact ih (by simpa using h)
    · rw [Bool.not_eq_true] at hx
      rw [hx] at h
      simp only [List.head?_cons, Option.some.injEq] at h
      rw [← h]
      exact hx

theorem jsTrimChars_head {l : List Char} {c : Char}
    (h : (jsTrimChars l).head? = some c) : jsSpace c = false := by
  rw [jsTrimChars] at h
  set m := l.dropWhile jsSpace with hm
  have hsplit : m.reverse.takeWhile jsSpace ++ m.reverse.dropWhile jsSpace =
      m.reverse := List.takeWhile_append_dropWhile jsSpace m.reverse
  cases hD : (m.reverse.dropWhile jsSpace).reverse with
  | nil => rw [hD] at h; cases h
  | cons hh tt =>
    rw [hD] at h
    simp only [List.head?_cons, Option.some.injEq] at h
    have hm2 : m = (m.reverse.dropWhile jsSpace).reverse ++
        (m.reverse.takeWhile jsSpace).reverse := by
      conv_lhs => rw [← List.reverse_reverse m, ← hsplit]
      rw [List.reverse_append]
    rw [hD] at hm2
    have hhead : m.head? = some c := by rw [hm2, h]; rfl
    exact head_dropWhile_not (hm ▸ hhead)

theorem noLeadingSpace_jsTrim (s : String) : noLeadingSpace (jsTrim s) = true := by
  rw [noLeadingSpace]
  cases hD : (jsTrim s).data with
  | nil => rfl
  | cons c t =>
    have : (jsTrimChars s.data).head? = some c := by
      have : (jsTrim s).data = jsTrimChars s.data := rfl
      rw [← this, hD]
      rfl
    simp [jsTrimChars_head this]

theorem noLeadingSpace_strDropLast {s : String} (h : noLeadingSpace s = true) :
    noLeadingSpace (strDropLast s) = true := by
  rw [noLeadingSpace] at h ⊢
  rw [strDropLast]
  cases hD : s.data with
  | nil => rfl
  | cons c t =>
    cases t with
    | nil => rfl
    | cons x xs =>
      rw [List.dropLast_cons_of_ne_nil (by simp)]
      rw [hD] at h
      exact h

theorem passBoundaryName_good (s : String) :
    passBoundaryName s ≠ "" ∧ noLeadingSpace (passBoundaryName s) = true := by
  rw [passBoundaryName]
  by_cases hcol : strEndsWith
      (jsTrim (if strStartsWith s ("###") then String.mk (s.data.drop 3) else s))
      (":") = true
  · rw [if_pos hcol]
    by_cases hemp : strDropLast
        (jsTrim (if strStartsWith s ("###") then String.mk (s.data.drop 3) else s)) = ""
    · rw [if_pos hemp]
      exact ⟨by decide, by decide⟩
    · rw [if_neg hemp]
      exact ⟨hemp, noLeadingSpace_strDropLast (noLeadingSpace_jsTrim _)⟩
  · rw [if_neg hcol]
    by_cases hemp : jsTrim
        (if strStartsWith s ("###") then String.mk (s.data.drop 3) else s) = ""
    · rw [if_pos hemp]
      exact ⟨by decide, by decide⟩
    · rw [if_neg hemp]
      exact ⟨hemp, noLeadingSpace_jsTrim _⟩

theorem passesLoop_names :
    ∀ (ls : List String) (pd : Bool) (buf : List String) (nm : String) (fa : Bool)
      (ps : List IRPass),
      nm ≠ "" → noLeadingSpace nm = true →
      (∀ p ∈ ps, p.name ≠ "" ∧ noLeadingSpace p.name = true) →
      ∀ p ∈ passesLoop pd ls buf nm fa ps,
        p.name ≠ "" ∧ noLeadingSpace p.name = true := by
  intro ls
  induction ls with
  | nil =>
    intro pd buf nm fa ps hnm1 hnm2 hps p hp
    rw [passesLoop] at hp
    split at hp
    · split at hp
      · exact hps p hp
      · rcases List.mem_append.mp hp with hp | hp
        · exact hps p hp
        · rcases List.mem_singleton.mp hp with rfl
          exact ⟨hnm1, hnm2⟩
    · exact hps p hp
  | cons l rest ih =>
    intro pd buf nm fa ps hnm1 hnm2 hps p hp
    cases pd with
    | false =>
      rw [passesLoop] at hp
      split at hp
      · exact ih true buf nm fa ps hnm1 hnm2 hps p hp
      · exact ih false (buf ++ [l]) nm fa ps hnm1 hnm2 hps p hp
    | true =>
      simp only [passesLoop] at hp
      split at hp
      · refine ih false [] (passBoundaryName (jsTrim l)) true _
          (passBoundaryName_good _).1 (passBoundaryName_good _).2 ?_ p hp
        intro q hq
        split at hq
        · split at hq
          · exact hps q hq
          · rcases List.mem_append.mp hq with hq | hq
            · exact hps q hq
            · rcases List.mem_singleton.mp hq with rfl
              exact ⟨hnm1, hnm2⟩
        · exact hps q hq
      · exact ih false (buf ++ [l]) nm fa ps hnm1 hnm2 hps p hp

/-- C9 amended: a pass name is computed by stripping the `###` marker,
trimming, and then stripping one trailing colon (so it can retain
trailing whitespace that preceded the colon, but never leading
whitespace), with `"Unnamed Pass"` as the fallback for an empty
remainder: every pass name `parsePasses` ever produces is non-empty and
free of leading whitespace, an all-whitespace-and-colon name line
yields `"Unnamed Pass"`, and `###  Q  :` yields `"Q  "`. -/
theorem claim_C9_amended_pass_names :
    (∀ input : String, ∀ p ∈ parsePasses input,
      p.name ≠ "" ∧ noLeadingSpace p.name = true) ∧
    parsePasses ("###\n###  Q  :\ny") = [{ name := "Q  ", content := "y" }] ∧
    parsePasses ("###\n### :\nz") = [{ name := "Unnamed Pass", content := "z" }] := by
  refine ⟨?_, by decide, by decide⟩
  intro input p hp
  rw [parsePasses] at hp
  split at hp
  · rcases List.mem_singleton.mp hp with rfl
    constructor
    · show ("Source" : String) ≠ ""
      decide
    · show noLeadingSpace ("Source") = true
      decide
  · exact passesLoop_names _ false [] ("Source") false []
      (by decide) (by decide) (fun q hq => by cases hq) p hp

/-- C9 witness: the universal part applied at a concrete input and pass. -/
theorem claim_C9_amended_witness :
    IRPass.name { name := "P ", content := "x" } ≠ "" ∧
    noLeadingSpace (IRPass.name { name := "P ", content := "x" }) = true :=
  claim_C9_amended_pass_names.1 ("###\n### P :\nx")
    { name := "P ", content := "x" } (by decide)
